import Mathlib

/-!
# Verification of the `mogger` comment-tree and permission core

Shallow embedding of the comment-tree builder, context-walk, purge policy and
permission model of the `mogger` blogging engine (`src/comment.rs`,
`src/user.rs`), together with proofs of the specified properties.

The database tables are modelled as Lean lists of rows; fallible database
operations return `Except DbError`; the potentially non-terminating recursive
tree population is modelled with an explicit fuel parameter (`none` meaning
the recursion did not finish within the given fuel).
-/

namespace Mogger

/-- Database-level error, mirroring `diesel::result::Error`: the only variant
the embedded code produces is `NotFound` (from `.first()` on a missing row). -/
inductive DbError where
  | notFound
deriving DecidableEq, Repr

/-- A comment row, mirroring `struct Comment` in `src/comment.rs`.
`i32` ids are modelled as `Int` (only equality on ids is ever used) and the
timestamp as an `Int` (it is never inspected by the embedded code). -/
structure Comment where
  id : Int
  parent : Option Int
  article : Int
  author : Option String
  name : Option String
  content : String
  date : Int
  visible : Bool
deriving DecidableEq, Repr

/-- A tree of comments, mirroring `struct Node` in `src/comment.rs`. -/
inductive Node where
  | mk (comment : Comment) (children : List Node)

/-- The wrapped comment of a node. -/
def Node.comment : Node → Comment
  | .mk c _ => c

/-- The child nodes of a node. -/
def Node.children : Node → List Node
  | .mk _ k => k

/-- Sequence an option-producing function over a list (the effect of the
`for child in ... { child.populate(list) }` loop when each recursive call may
run out of fuel): `some` of the list of results iff every call succeeds. -/
def optMap (f : α → Option β) : List α → Option (List β)
  | [] => some []
  | a :: l => do
      let b ← f a
      let r ← optMap f l
      pure (b :: r)

/-- `Node::populate` from `src/comment.rs`, fuel-indexed: build the node for
comment `c`, taking as children all comments of `flat` whose `parent` equals
`some c.id` (in list order) and recursively populating each.  `none` means the
recursion did not terminate within `fuel` levels. -/
def populateF (flat : List Comment) : Nat → Comment → Option Node
  | 0, _ => none
  | fuel + 1, c =>
      (optMap (populateF flat fuel)
        (flat.filter (fun d => d.parent == some c.id))).map (Node.mk c)

/-- `comment::list` from `src/comment.rs` (minus the database fetch): the
root-level comments of `flat` (those with `parent == None`, in list order),
each recursively populated. -/
def listTree (flat : List Comment) (fuel : Nat) : Option (List Node) :=
  optMap (populateF flat fuel) (flat.filter (fun c => c.parent.isNone))

/-- The upward context walk of `comment::view`: `context` times, replace the
current (optional) comment by the first element of `flat` whose id equals the
current comment's parent. -/
def walkUp (flat : List Comment) : Option Comment → Nat → Option Comment
  | c, 0 => c
  | c, n + 1 =>
      walkUp flat
        (flat.find? (fun parent => (c.bind Comment.parent) == some parent.id)) n

/-- `comment::view` from `src/comment.rs`.  The comment store (the `comments`
table) is a list of rows; `dsl::comments.find(id).first(conn)?` is the first
row with the given id, erring with `NotFound` when there is none;
`list_flat` is the rows of the found comment's article.  The outer `Option`
is the fuel monad of `populateF`: `none` means tree population ran out of
fuel; a real run of the Rust code corresponds to an adequate fuel. -/
def view (fuel : Nat) (store : List Comment) (id : Int) (context : Nat) :
    Option (Except DbError (Option Node)) :=
  match store.find? (fun c => c.id == id) with
  | none => some (.error .notFound)
  | some c0 =>
      let flat := store.filter (fun c => c.article == c0.article)
      match walkUp flat (flat.find? (fun c => c.id == id)) context with
      | none => some (.ok none)
      | some c => (populateF flat fuel c).map (fun n => .ok (some n))

/-- `comment::purge` from `src/comment.rs` over a list-modelled comment table:
count the rows whose `parent` equals `some id`; if zero, delete the row(s)
with that id and return the new table, otherwise fail with the "has children"
error message and leave the table untouched. -/
def purge (store : List Comment) (id : Int) : Except String (List Comment) :=
  let childrenCount := (store.filter (fun c => c.parent == some id)).length
  if childrenCount == 0 then
    .ok (store.filter (fun c => !(c.id == id)))
  else
    .error "Can't purge comment with direct children"

/-- `enum Permission` from `src/user.rs`. -/
inductive Permission where
  | All
  | CreateArticle
  | EditArticle
  | DeleteArticle
  | EditForeignArticle
  | DeleteForeignArticle
  | CreateComment
  | EditComment
  | DeleteComment
  | EditForeignComment
  | DeleteForeignComment
  | CreateUser
  | EditForeignUser
  | DeleteForeignUser
deriving DecidableEq, Repr

/-- `struct Group` from `src/user.rs`: a named list of permissions. -/
structure Group where
  id : String
  permissions : List Permission
deriving DecidableEq, Repr

/-- `struct User` from `src/user.rs` (credential material kept abstract). -/
structure User where
  id : String
  hash : String
  name : String
  email : String
  group : String
  rehash : Bool
deriving DecidableEq, Repr

/-- `struct Session` from `src/user.rs`; the expiry timestamp is an `Int`. -/
structure Session where
  id : String
  user : String
  expires : Int
deriving DecidableEq, Repr

/-- The database state the permission checks read: the `users` and `groups`
tables as lists of rows. -/
structure Store where
  users : List User
  groups : List Group
deriving DecidableEq, Repr

/-- `User::allowed` from `src/user.rs`: look up the user's group (erring with
`NotFound` when absent, as `first()` does) and test membership of the
permission or of the wildcard `All` in the group's permission list. -/
def User.allowed (u : User) (p : Permission) (st : Store) : Except DbError Bool :=
  match st.groups.find? (fun g => g.id == u.group) with
  | none => .error .notFound
  | some g => .ok (g.permissions.contains p || g.permissions.contains .All)

/-- `user::get` from `src/user.rs`: primary-key lookup in the `users` table. -/
def userGet (st : Store) (id : String) : Except DbError User :=
  match st.users.find? (fun u => u.id == id) with
  | none => .error .notFound
  | some u => .ok u

/-- `Session::allowed` from `src/user.rs`: resolve the session's user, then
delegate to `User::allowed`. -/
def Session.allowed (s : Session) (p : Permission) (st : Store) :
    Except DbError Bool := do
  let u ← userGet st s.user
  u.allowed p st

/-- `Comment::editable` from `src/comment.rs`.  With no session the result is
`false` with no store access; with a session it is
`allowed(EditForeignComment) || allowed(EditComment) && author == user`,
with Rust's short-circuit `||` (the second `allowed` query is not made when
the first returns `true`). -/
def Comment.editable (c : Comment) (session : Option Session) (st : Store) :
    Except DbError Bool :=
  match session with
  | none => .ok false
  | some s => do
      let foreign ← s.allowed .EditForeignComment st
      if foreign then
        pure true
      else
        let own ← s.allowed .EditComment st
        pure (own && ((c.author.map (fun a => a == s.user)).getD false))

/-- `Comment::viewable` from `src/comment.rs`: visible comments are viewable
by anyone; invisible ones only by whoever may edit them. -/
def Comment.viewable (c : Comment) (session : Option Session) (st : Store) :
    Except DbError Bool :=
  if c.visible then .ok true else c.editable session st

/-- The comment-anonymization stage of `user::delete` in `src/user.rs`: the
diesel bulk `UPDATE` over all comments whose `author` equals the deleted
user's id.  With `purgeContents` (the `deletion.purge` flag) the update sets
`author = None, name = "[deleted]", content = "", visible = false`; without
it, `author = None, name = "[deleted]", visible = false`.  Password
verification, session deletion and the user-row deletion are outside the
comment table and omitted. -/
def deleteUserComments (comments : List Comment) (id : String)
    (purgeContents : Bool) : List Comment :=
  comments.map (fun c =>
    if c.author == some id then
      if purgeContents then
        { c with author := none, name := some "[deleted]",
                 content := "", visible := false }
      else
        { c with author := none, name := some "[deleted]", visible := false }
    else c)

/-- Whether the ancestor chain of `c` inside `flat` reaches a root (a comment
with `parent = none`) within `fuel` lookups: the reachability notion under
which a comment actually appears in the forest built by `listTree`. -/
def rootedF (flat : List Comment) : Nat → Comment → Bool
  | 0, _ => false
  | fuel + 1, c =>
      match c.parent with
      | none => true
      | some p =>
          match flat.find? (fun d => d.id == p) with
          | none => false
          | some q => rootedF flat fuel q

mutual
/-- All comments of a tree, in preorder. -/
def allT : Node → List Comment
  | .mk c kids => c :: allF kids

/-- All comments of a forest, in preorder. -/
def allF : List Node → List Comment
  | [] => []
  | n :: rest => allT n ++ allF rest
end

mutual
/-- All nodes of a tree (the node itself and, recursively, those of its
children). -/
def nodesT : Node → List Node
  | .mk c kids => .mk c kids :: nodesF kids

/-- All nodes of a forest. -/
def nodesF : List Node → List Node
  | [] => []
  | n :: rest => nodesT n ++ nodesF rest
end

/-- The ancestor chain of `c` reaches a root within some finite number of
lookups: exactly the comments that can appear in a populated forest. -/
def Rooted (flat : List Comment) (c : Comment) : Prop :=
  ∃ g, rootedF flat g c = true

/-- Well-formed populated node at a fuel bound: the comment is a row of
`flat`, the children's comments are exactly the rows whose `parent` is the
node's id (in list order), and every child is itself well-formed at one fuel
less.  `populateF` only produces such nodes. -/
inductive WFN (flat : List Comment) : Nat → Node → Prop where
  | mk : ∀ (fuel : Nat) (c : Comment) (kids : List Node),
      c ∈ flat →
      kids.map Node.comment = flat.filter (fun d => d.parent == some c.id) →
      (∀ k ∈ kids, WFN flat fuel k) →
      WFN flat (fuel + 1) (Node.mk c kids)

/-! ## Concrete sample data for witness instantiations -/

/-- A sample comment with the fields the properties never inspect fixed. -/
def sampleC (id : Int) (parent : Option Int) (author : Option String)
    (visible : Bool) : Comment :=
  { id := id, parent := parent, article := 1, author := author, name := none,
    content := "c", date := 0, visible := visible }

/-- Sample user in the `mods` group. -/
def uAlice : User :=
  { id := "alice", hash := "h", name := "Alice", email := "e",
    group := "mods", rehash := false }

/-- Sample user in the `admins` group. -/
def uBob : User :=
  { id := "bob", hash := "h", name := "Bob", email := "e",
    group := "admins", rehash := false }

/-- Sample group holding only the own-comment edit permission. -/
def gMods : Group := { id := "mods", permissions := [.EditComment] }

/-- Sample group holding the foreign-comment edit permission. -/
def gAdmins : Group := { id := "admins", permissions := [.EditForeignComment] }

/-- Sample user/group store. -/
def stW : Store := { users := [uAlice, uBob], groups := [gMods, gAdmins] }

/-- Sample session of `uAlice`. -/
def sessAlice : Session := { id := "s1", user := "alice", expires := 0 }

end Mogger

namespace Mogger

/-! ## Theorems -/

/-- Auxiliary: the ownership test `author.map(|a| a == user).unwrap_or(false)`
equals the direct option comparison `author == Some(user)`. -/
theorem authorMatch (o : Option String) (w : String) :
    (o.map (fun a => a == w)).getD false = (o == some w) := by
  cases o <;> rfl

/-- C7: `User::allowed` holds exactly when the permission, or the wildcard
`All`, is an element of the user's group's permission set; in particular a
group containing `All` satisfies every permission check. -/
theorem c7_user_allowed (u : User) (p : Permission) (st : Store) (g : Group)
    (hg : st.groups.find? (fun x => x.id == u.group) = some g) :
    (User.allowed u p st = .ok true ↔
      (p ∈ g.permissions ∨ Permission.All ∈ g.permissions)) ∧
    (Permission.All ∈ g.permissions → User.allowed u p st = .ok true) := by
  constructor
  · unfold User.allowed
    rw [hg]
    simp
  · intro hAll
    unfold User.allowed
    rw [hg]
    simp [hAll]

/-- Witness for C7 at a concrete store: `uAlice`'s group `gMods` contains
`EditComment`, so the check succeeds. -/
theorem c7_user_allowed_witness :
    User.allowed uAlice Permission.EditComment stW = .ok true :=
  ((c7_user_allowed uAlice .EditComment stW gMods rfl).1).mpr
    (Or.inl (by decide))

/-- C5: `Comment::viewable` is `true` whenever the comment's `visible` flag
is set, for any actor and any store; when `visible` is `false` it is exactly
`Comment::editable` for that comment and actor. -/
theorem c5_viewable (c : Comment) (sess : Option Session) (st : Store) :
    (c.visible = true → Comment.viewable c sess st = .ok true) ∧
    (c.visible = false →
      Comment.viewable c sess st = Comment.editable c sess st) := by
  constructor <;> intro h <;> simp [Comment.viewable, h]

/-- Witness for C5: a visible comment is viewable by the anonymous actor; an
invisible one reduces to the editable check. -/
theorem c5_viewable_witness :
    Comment.viewable (sampleC 1 none none true) none stW = .ok true ∧
    Comment.viewable (sampleC 1 none none false) none stW =
      Comment.editable (sampleC 1 none none false) none stW :=
  ⟨(c5_viewable (sampleC 1 none none true) none stW).1 rfl,
   (c5_viewable (sampleC 1 none none false) none stW).2 rfl⟩

/-- C4: `Comment::editable` follows the own-or-foreign rule, foreign first:
with no session it is `false` for every store; with a session whose user and
group resolve, it equals
`has(EditForeignComment) || has(EditComment) && author == Some(user)`
(`has` including the `All` wildcard), so a foreign permission suffices
regardless of ownership, and for a guest-authored comment
(`author == None`) only the foreign permission can grant access. -/
theorem c4_editable (c : Comment) (s : Session) (st : Store) (u : User)
    (g : Group)
    (hu : st.users.find? (fun x => x.id == s.user) = some u)
    (hg : st.groups.find? (fun x => x.id == u.group) = some g) :
    (∀ (c2 : Comment) (st2 : Store), Comment.editable c2 none st2 = .ok false)
    ∧ Comment.editable c (some s) st =
        .ok ((g.permissions.contains .EditForeignComment
              || g.permissions.contains .All)
          || ((g.permissions.contains .EditComment
              || g.permissions.contains .All)
            && (c.author == some s.user)))
    ∧ ((g.permissions.contains Permission.EditForeignComment
          || g.permissions.contains Permission.All) = true →
        Comment.editable c (some s) st = .ok true)
    ∧ (c.author = none →
        Comment.editable c (some s) st =
          .ok (g.permissions.contains .EditForeignComment
              || g.permissions.contains .All)) := by
  have hmain : Comment.editable c (some s) st =
      .ok ((g.permissions.contains .EditForeignComment
            || g.permissions.contains .All)
        || ((g.permissions.contains .EditComment
            || g.permissions.contains .All)
          && (c.author == some s.user))) := by
    simp only [Comment.editable, Session.allowed, userGet, User.allowed, hu,
      hg, bind, Except.bind, authorMatch]
    by_cases hf : (g.permissions.contains Permission.EditForeignComment
        || g.permissions.contains Permission.All) = true
    · rw [if_pos hf, hf, Bool.true_or]
      rfl
    · rw [if_neg hf]
      rw [Bool.not_eq_true] at hf
      rw [hf, Bool.false_or]
      rfl
  refine ⟨fun c2 st2 => rfl, hmain, fun hf => ?_, fun hga => ?_⟩
  · rw [hmain, hf, Bool.true_or]
  · rw [hmain, hga]
    have : ((none : Option String) == some s.user) = false := rfl
    rw [this, Bool.and_false, Bool.or_false]

/-- Witness for C4 at the concrete store `stW`: `uAlice` holds only
`EditComment`, so she may edit her own comment but not `uBob`'s. -/
theorem c4_editable_witness :
    Comment.editable (sampleC 1 none (some "alice") true) (some sessAlice) stW
      = .ok true ∧
    Comment.editable (sampleC 2 none (some "bob") true) (some sessAlice) stW
      = .ok false := by
  have h1 := (c4_editable (sampleC 1 none (some "alice") true) sessAlice stW
    uAlice gMods rfl rfl).2.1
  have h2 := (c4_editable (sampleC 2 none (some "bob") true) sessAlice stW
    uAlice gMods rfl rfl).2.1
  rw [h1, h2]
  exact ⟨rfl, rfl⟩

end Mogger

namespace Mogger

/-- The walk never recovers once the current comment is `None`: the find
predicate `None == Some(parent.id)` is false for every candidate. -/
theorem walkUp_none (flat : List Comment) (n : Nat) : walkUp flat none n = none := by
  induction n with
  | zero => rfl
  | succ n ih =>
      rw [walkUp]
      have h : flat.find?
          (fun parent =>
            ((none : Option Comment).bind Comment.parent) == some parent.id) = none :=
        List.find?_eq_none.mpr (fun a _ => by simp)
      rw [h]
      exact ih

/-- Splitting the upward walk: `m + n` steps are `m` steps then `n` steps. -/
theorem walkUp_add (flat : List Comment) (c : Option Comment) (m n : Nat) :
    walkUp flat c (m + n) = walkUp flat (walkUp flat c m) n := by
  induction m generalizing c with
  | zero => rw [Nat.zero_add]; rfl
  | succ m ih =>
      have h1 : m + 1 + n = (m + n) + 1 := by omega
      rw [h1, walkUp, walkUp, ih]

/-- `find?` returns the distinguished element when it satisfies the predicate
and is the only satisfier in the list. -/
theorem find?_unique {α : Type} {p : α → Bool} {l : List α} {t : α}
    (ht : t ∈ l) (hp : p t = true) (huniq : ∀ u ∈ l, p u = true → u = t) :
    l.find? p = some t := by
  induction l with
  | nil => cases ht
  | cons a l ih =>
      by_cases ha : p a = true
      · rw [List.find?_cons_of_pos _ ha, huniq a (List.mem_cons_self a l) ha]
      · rw [List.find?_cons_of_neg _ ha]
        rcases List.mem_cons.mp ht with rfl | ht2
        · exact absurd hp ha
        · exact ih ht2 (fun u hu hpu => huniq u (List.mem_cons_of_mem a hu) hpu)

/-- Pairwise-distinct ids make the id an injective key on the list. -/
theorem comment_id_inj {flat : List Comment}
    (hn : (flat.map Comment.id).Nodup) :
    ∀ x ∈ flat, ∀ y ∈ flat, x.id = y.id → x = y :=
  fun _ hx _ hy h => List.inj_on_of_nodup_map hn hx hy h

/-- C3: `purge` with no comment pointing at `id` succeeds, removing exactly
the row(s) with that id and keeping every other row; with at least one direct
child it fails with the has-children error and performs no mutation (the
table value is not replaced). -/
theorem c3_purge (store : List Comment) (id : Int) :
    ((∀ c ∈ store, c.parent ≠ some id) →
      purge store id = .ok (store.filter (fun c => !(c.id == id))) ∧
      ∀ c : Comment,
        c ∈ store.filter (fun c => !(c.id == id)) ↔ (c ∈ store ∧ c.id ≠ id)) ∧
    ((∃ c ∈ store, c.parent = some id) →
      purge store id = .error "Can't purge comment with direct children") := by
  constructor
  · intro h
    have hf : store.filter (fun c => c.parent == some id) = [] :=
      List.filter_eq_nil_iff.mpr (fun a ha => by simpa using h a ha)
    constructor
    · unfold purge
      rw [hf]
      rfl
    · intro c
      simp [List.mem_filter]
  · rintro ⟨c, hc, hp⟩
    have hmem : c ∈ store.filter (fun c => c.parent == some id) :=
      List.mem_filter.mpr ⟨hc, by simp [hp]⟩
    unfold purge
    rw [if_neg]
    intro habs
    have hlen : (store.filter (fun c => c.parent == some id)).length = 0 := by
      simpa using habs
    have : store.filter (fun c => c.parent == some id) = [] :=
      List.eq_nil_of_length_eq_zero hlen
    rw [this] at hmem
    cases hmem

/-- Witness for C3: in a two-comment table, purging the childless leaf
succeeds and leaves the root; purging the root (which has a child) fails. -/
theorem c3_purge_witness :
    purge [sampleC 1 none none true, sampleC 2 (some 1) none true] 2 =
      .ok [sampleC 1 none none true] ∧
    purge [sampleC 1 none none true, sampleC 2 (some 1) none true] 1 =
      .error "Can't purge comment with direct children" := by
  constructor
  · have h := ((c3_purge [sampleC 1 none none true, sampleC 2 (some 1) none true]
      2).1 (by decide)).1
    rw [h]
    rfl
  · exact (c3_purge [sampleC 1 none none true, sampleC 2 (some 1) none true]
      1).2 ⟨sampleC 2 (some 1) none true, by decide, rfl⟩

/-- C8 counterexample: in ownership-removal-only mode (`purge = false`),
deleting user `"u"` still forces `visible` to `false` on their comment,
although the claim says the visible flag is left unchanged; the content,
however, is indeed left unchanged. -/
theorem c8_counterexample :
    (deleteUserComments [sampleC 1 none (some "u") true] "u" false).map
        Comment.visible = [false] ∧
    (sampleC 1 none (some "u") true).visible = true ∧
    (deleteUserComments [sampleC 1 none (some "u") true] "u" false).map
        Comment.content = [(sampleC 1 none (some "u") true).content] :=
  ⟨rfl, rfl, rfl⟩

/-- C8 (amended): user deletion rewrites each comment row authored by the
deleted user to `author = None`, `name = "[deleted]"`, `visible = false` in
both modes, blanks `content` exactly when full purge was requested (other
fields untouched), and leaves every other row unchanged. -/
theorem c8_delete_comments (comments : List Comment) (id : String)
    (purgeContents : Bool) :
    List.Forall₂ (fun c d =>
        (c.author = some id →
          d.author = none ∧ d.name = some "[deleted]" ∧ d.visible = false ∧
          d.content = (if purgeContents then "" else c.content) ∧
          d.id = c.id ∧ d.parent = c.parent ∧ d.article = c.article ∧
          d.date = c.date) ∧
        (c.author ≠ some id → d = c))
      comments (deleteUserComments comments id purgeContents) := by
  induction comments with
  | nil => exact List.Forall₂.nil
  | cons c cs ih =>
      simp only [deleteUserComments, List.map_cons] at ih ⊢
      refine List.Forall₂.cons ?_ ih
      by_cases h : c.author = some id
      · have hb : (c.author == some id) = true := by simp [h]
        refine ⟨fun _ => ?_, fun hne => absurd h hne⟩
        simp only [hb, if_true]
        cases purgeContents <;> exact ⟨rfl, rfl, rfl, rfl, rfl, rfl, rfl, rfl⟩
      · have hb : (c.author == some id) = false := by simp [h]
        refine ⟨fun ha => absurd ha h, fun _ => ?_⟩
        simp only [hb]
        rfl

/-- C9 counterexample: `view` on an id absent from the store propagates the
`NotFound` database error instead of returning the empty result `Ok(None)`. -/
theorem c9_counterexample :
    view 1 [] 5 0 = some (.error .notFound) ∧
    view 1 [] 5 0 ≠ some (.ok none) := by
  have h : view 1 [] 5 0 = some (.error .notFound) := rfl
  refine ⟨h, fun habs => ?_⟩
  rw [h] at habs
  simp at habs

/-- C9 (amended): for every comment id with no row in the store, `view`
returns the propagated `NotFound` error (from the initial
`comments.find(id).first()?`), not an empty optional result. -/
theorem c9_view_missing (fuel : Nat) (store : List Comment) (id : Int)
    (ctx : Nat) (h : store.find? (fun c => c.id == id) = none) :
    view fuel store id ctx = some (.error .notFound) := by
  unfold view
  rw [h]

/-- Witness for C9 at the empty store. -/
theorem c9_view_missing_witness :
    ([] : List Comment).find? (fun c => c.id == (5 : Int)) = none ∧
    view 1 [] 5 0 = some (.error .notFound) :=
  ⟨rfl, c9_view_missing 1 [] 5 0 rfl⟩

/-- C2 counterexample: a single root comment (empty ancestor chain) viewed
with `context = 1` yields `Ok(None)` — not the root's expanded subtree as the
claim states. -/
theorem c2_counterexample :
    view 5 [sampleC 1 none none true] 1 1 = some (.ok none) ∧
    view 5 [sampleC 1 none none true] 1 1 ≠
      some (.ok (some (Node.mk (sampleC 1 none none true) []))) := by
  have h : view 5 [sampleC 1 none none true] 1 1 = some (.ok none) := rfl
  refine ⟨h, fun habs => ?_⟩
  rw [h] at habs
  simp at habs

/-- C2 (amended): when the context depth exceeds the target's ancestor chain,
the walk does not stop at the topmost ancestor: on the step past a comment
whose parent is `None` (or absent from the list) the current comment becomes
`None`, and `view` returns `Ok(None)` (no error, but also no subtree). -/
theorem c2_view_overshoot (fuel : Nat) (store : List Comment) (id : Int)
    (c0 r : Comment) (d k : Nat)
    (h0 : store.find? (fun c => c.id == id) = some c0)
    (hw : walkUp (store.filter (fun c => c.article == c0.article))
        ((store.filter (fun c => c.article == c0.article)).find?
          (fun c => c.id == id)) d = some r)
    (hr : (store.filter (fun c => c.article == c0.article)).find?
        (fun parent => r.parent == some parent.id) = none)
    (hk : 1 ≤ k) :
    view fuel store id (d + k) = some (.ok none) := by
  unfold view
  rw [h0]
  simp only
  rw [walkUp_add, hw]
  obtain ⟨k2, rfl⟩ : ∃ k2, k = k2 + 1 := ⟨k - 1, by omega⟩
  rw [walkUp]
  have hb : ((some r).bind Comment.parent) = r.parent := rfl
  rw [hb, hr, walkUp_none]

/-- Witness for C2 at the single-root store: walking `0 + 1` steps from the
root returns `Ok(None)`. -/
theorem c2_view_overshoot_witness :
    view 5 [sampleC 1 none none true] 1 (0 + 1) = some (.ok none) :=
  c2_view_overshoot 5 [sampleC 1 none none true] 1
    (sampleC 1 none none true) (sampleC 1 none none true) 0 1
    rfl rfl rfl (by decide)

/-- C6: with distinct ids and the target id present, `view` at context depth
`0` returns exactly the node for the target comment with its descendants
expanded by the same recursive child-attachment (`Node::populate`) used for
forest building — a no-op ascent. -/
theorem c6_view_zero (fuel : Nat) (store : List Comment) (id : Int)
    (t : Comment) (hn : (store.map Comment.id).Nodup)
    (ht : store.find? (fun c => c.id == id) = some t) :
    view fuel store id 0 =
      (populateF (store.filter (fun c => c.article == t.article)) fuel t).map
        (fun n => .ok (some n)) := by
  have htmem : t ∈ store := List.mem_of_find?_eq_some ht
  have htid : t.id = id := by
    have h2 := List.find?_some ht
    simpa using h2
  have hfind : (store.filter (fun c => c.article == t.article)).find?
      (fun c => c.id == id) = some t := by
    apply find?_unique
    · exact List.mem_filter.mpr ⟨htmem, by simp⟩
    · simpa using htid
    · intro u hu hpu
      refine comment_id_inj hn u (List.mem_filter.mp hu).1 t htmem ?_
      have h3 : u.id = id := by simpa using hpu
      rw [h3, htid]
  unfold view
  rw [ht]
  simp only
  rw [hfind]
  rfl

/-- Witness for C6 at a concrete two-comment thread: viewing the root at
depth `0` yields the fully expanded tree. -/
theorem c6_view_zero_witness :
    view 2 [sampleC 1 none none true, sampleC 2 (some 1) none true] 1 0 =
      (populateF ([sampleC 1 none none true, sampleC 2 (some 1) none true].filter
          (fun c => c.article == (sampleC 1 none none true).article)) 2
        (sampleC 1 none none true)).map (fun n => .ok (some n)) :=
  c6_view_zero 2 [sampleC 1 none none true, sampleC 2 (some 1) none true] 1
    (sampleC 1 none none true) (by decide) rfl


/-- `rootedF` at fuel `0` is always false. -/
theorem rootedF_zero (flat : List Comment) (c : Comment) :
    rootedF flat 0 c = false := rfl

/-- Unfolding `rootedF` at a root comment. -/
theorem rootedF_succ_none {flat : List Comment} {c : Comment} (g : Nat)
    (hp : c.parent = none) : rootedF flat (g + 1) c = true := by
  rw [rootedF, hp]

/-- Unfolding `rootedF` at a comment with a parent reference. -/
theorem rootedF_succ_some {flat : List Comment} {c : Comment} {p : Int}
    (g : Nat) (hp : c.parent = some p) :
    rootedF flat (g + 1) c =
      (match flat.find? (fun d => d.id == p) with
        | none => false
        | some q => rootedF flat g q) := by
  rw [rootedF, hp]

/-- Rootedness within `g` lookups is monotone in the fuel. -/
theorem rootedF_mono {flat : List Comment} :
    ∀ {g h : Nat} {c : Comment}, rootedF flat g c = true → g ≤ h →
      rootedF flat h c = true := by
  intro g
  induction g with
  | zero => intro h c hr _; rw [rootedF_zero] at hr; cases hr
  | succ g ih =>
      intro h c hr hle
      obtain ⟨h2, rfl⟩ : ∃ h2, h = h2 + 1 := ⟨h - 1, by omega⟩
      cases hp : c.parent with
      | none => exact rootedF_succ_none h2 hp
      | some p =>
          rw [rootedF_succ_some g hp] at hr
          rw [rootedF_succ_some h2 hp]
          cases hq : flat.find? (fun d => d.id == p) with
          | none => rw [hq] at hr; cases hr
          | some q =>
              rw [hq] at hr
              exact ih hr (by omega)

/-- A comment with no parent is rooted. -/
theorem rooted_root {flat : List Comment} {c : Comment} (hp : c.parent = none) :
    Rooted flat c := ⟨1, rootedF_succ_none 0 hp⟩

/-- The minimal rooting fuel of a root comment is `1`. -/
theorem mF_root {flat : List Comment} {c : Comment} (hp : c.parent = none)
    (hr : Rooted flat c) : Nat.find hr = 1 := by
  rw [Nat.find_eq_iff]
  refine ⟨rootedF_succ_none 0 hp, ?_⟩
  intro k hk
  interval_cases k
  simp [rootedF_zero]

/-- Stepping to the (unique lookup result for the) parent decreases the
minimal rooting fuel by exactly one. -/
theorem mF_step {flat : List Comment} {c q : Comment} {p : Int}
    (hp : c.parent = some p)
    (hq : flat.find? (fun d => d.id == p) = some q)
    (hr : Rooted flat c) :
    ∃ hrq : Rooted flat q, Nat.find hr = Nat.find hrq + 1 := by
  obtain ⟨g, hg⟩ := hr
  obtain ⟨g2, rfl⟩ : ∃ g2, g = g2 + 1 := by
    cases g with
    | zero => rw [rootedF_zero] at hg; cases hg
    | succ g2 => exact ⟨g2, rfl⟩
  rw [rootedF_succ_some g2 hp, hq] at hg
  have hrq : Rooted flat q := ⟨g2, hg⟩
  refine ⟨hrq, ?_⟩
  rw [Nat.find_eq_iff]
  constructor
  · rw [rootedF_succ_some (Nat.find hrq) hp, hq]
    exact Nat.find_spec hrq
  · intro k hk
    cases k with
    | zero => simp [rootedF_zero]
    | succ k2 =>
        rw [rootedF_succ_some k2 hp, hq]
        exact Nat.find_min hrq (by omega)

/-- The ancestor chain of a rooted comment is a duplicate-free list of
comments of `flat` whose length is the minimal rooting fuel: consecutive
chain elements have strictly decreasing minimal fuels, so the chain cannot
repeat. -/
theorem rooted_chain {flat : List Comment} :
    ∀ (m : Nat) (c : Comment), c ∈ flat → (hr : Rooted flat c) →
      Nat.find hr = m →
      ∃ L : List Comment, L.Nodup ∧ (∀ y ∈ L, y ∈ flat) ∧ L.length = m ∧
        (∀ y ∈ L, ∃ hy : Rooted flat y, Nat.find hy ≤ m) := by
  intro m
  induction m using Nat.strong_induction_on with
  | _ m ih =>
      intro c hc hr hm
      cases hp : c.parent with
      | none =>
          refine ⟨[c], List.nodup_singleton c, by simpa using hc, ?_, ?_⟩
          · rw [← hm, mF_root hp hr]
            rfl
          · intro y hy
            rw [List.mem_singleton] at hy
            subst hy
            exact ⟨hr, le_of_eq hm⟩
      | some p =>
          cases hq : flat.find? (fun d => d.id == p) with
          | none =>
              exfalso
              obtain ⟨g, hg⟩ := hr
              cases g with
              | zero => rw [rootedF_zero] at hg; cases hg
              | succ g2 => rw [rootedF_succ_some g2 hp, hq] at hg; cases hg
          | some q =>
              obtain ⟨hrq, hstep⟩ := mF_step hp hq hr
              have hqmem : q ∈ flat := List.mem_of_find?_eq_some hq
              obtain ⟨m2, hm2⟩ : ∃ m2, Nat.find hrq = m2 := ⟨_, rfl⟩
              have hmm : m = m2 + 1 := by omega
              obtain ⟨L, hnd, hsub, hlen, hbound⟩ :=
                ih m2 (by omega) q hqmem hrq hm2
              refine ⟨c :: L, ?_, ?_, ?_, ?_⟩
              · rw [List.nodup_cons]
                refine ⟨?_, hnd⟩
                intro hcL
                obtain ⟨hc2, hle⟩ := hbound c hcL
                have : Nat.find hc2 = Nat.find hr := rfl
                omega
              · intro y hy
                rcases List.mem_cons.mp hy with rfl | hy2
                · exact hc
                · exact hsub y hy2
              · simpa [hlen] using hmm.symm
              · intro y hy
                rcases List.mem_cons.mp hy with rfl | hy2
                · exact ⟨hr, by omega⟩
                · obtain ⟨hy3, hle⟩ := hbound y hy2
                  exact ⟨hy3, by omega⟩

/-- Minimal rooting fuel never exceeds the list length. -/
theorem rooted_le {flat : List Comment} {c : Comment} (hc : c ∈ flat)
    (hr : Rooted flat c) : Nat.find hr ≤ flat.length := by
  obtain ⟨L, hnd, hsub, hlen, _⟩ := rooted_chain (Nat.find hr) c hc hr rfl
  have := (hnd.subperm hsub).length_le
  omega

/-- Mapping over an option preserves `isSome`. -/
theorem isSome_map {α β : Type} (f : α → β) (o : Option α) :
    (o.map f).isSome = o.isSome := by
  cases o <;> rfl

/-- `optMap` succeeds exactly when every single call succeeds. -/
theorem optMap_isSome {α β : Type} {f : α → Option β} {l : List α} :
    (optMap f l).isSome = true ↔ ∀ a ∈ l, (f a).isSome = true := by
  induction l with
  | nil => simp [optMap]
  | cons a l ih =>
      cases hfa : f a with
      | none => simp [optMap, hfa]
      | some b =>
          cases hl : optMap f l with
          | none =>
              simp only [optMap, hfa, hl]
              simp [← ih, hl]
          | some r =>
              simp only [optMap, hfa, hl]
              simp [← ih, hl, hfa]

/-- Fuel adequacy of `Node::populate`: with pairwise-distinct ids, populating
a rooted comment succeeds whenever the fuel plus the comment's chain depth
covers the list length. -/
theorem populate_ok {flat : List Comment}
    (hn : (flat.map Comment.id).Nodup) :
    ∀ (fuel : Nat) (c : Comment), c ∈ flat → (hr : Rooted flat c) →
      flat.length + 1 ≤ fuel + Nat.find hr →
      (populateF flat fuel c).isSome = true := by
  intro fuel
  induction fuel with
  | zero =>
      intro c hc hr hb
      have := rooted_le hc hr
      omega
  | succ fuel ih =>
      intro c hc hr hb
      rw [populateF]
      rw [isSome_map]
      rw [optMap_isSome]
      intro d hd
      have hdmem : d ∈ flat := (List.mem_filter.mp hd).1
      have hdp : d.parent = some c.id := by
        have := (List.mem_filter.mp hd).2
        simpa using this
      have hcfind : flat.find? (fun e => e.id == c.id) = some c := by
        apply find?_unique hc (by simp)
        intro u hu hpu
        exact comment_id_inj hn u hu c hc (by simpa using hpu)
      have hrd : Rooted flat d := by
        obtain ⟨g, hg⟩ := hr
        refine ⟨g + 1, ?_⟩
        rw [rootedF_succ_some g hdp, hcfind]
        exact hg
      obtain ⟨hrc2, hstep⟩ := mF_step hdp hcfind hrd
      have heq : Nat.find hrc2 = Nat.find hr := rfl
      exact ih d hdmem hrd (by omega)

/-- C10: with pairwise-distinct ids the recursive forest construction
terminates — fuel equal to the list length always suffices for
`comment::list` — while without the distinct-id precondition it can fail to
terminate: on the two-comment list sharing id `1` (a root and a self-parented
duplicate) no amount of fuel completes the recursion. -/
theorem c10_populate_termination :
    (∀ flat : List Comment, (flat.map Comment.id).Nodup →
      (listTree flat flat.length).isSome = true) ∧
    (∀ fuel : Nat,
      listTree [sampleC 1 none none true, sampleC 1 (some 1) none true] fuel
        = none) := by
  constructor
  · intro flat hn
    rw [listTree, optMap_isSome]
    intro r hriff
    have hrmem : r ∈ flat := (List.mem_filter.mp hriff).1
    have hrp : r.parent = none := by
      have := (List.mem_filter.mp hriff).2
      simpa [Option.isNone_iff_eq_none] using this
    have hr : Rooted flat r := rooted_root hrp
    apply populate_ok hn flat.length r hrmem hr
    rw [mF_root hrp hr]
  · have hb2 : ∀ fuel : Nat,
        populateF [sampleC 1 none none true, sampleC 1 (some 1) none true]
          fuel (sampleC 1 (some 1) none true) = none := by
      intro fuel
      induction fuel with
      | zero => rfl
      | succ fuel ih =>
          rw [populateF]
          have hfil : [sampleC 1 none none true,
              sampleC 1 (some 1) none true].filter
                (fun d => d.parent == some (sampleC 1 (some 1) none true).id)
              = [sampleC 1 (some 1) none true] := rfl
          rw [hfil]
          simp [optMap, ih]
    intro fuel
    have hb1 : populateF [sampleC 1 none none true,
        sampleC 1 (some 1) none true] fuel (sampleC 1 none none true)
        = none := by
      cases fuel with
      | zero => rfl
      | succ fuel2 =>
          rw [populateF]
          have hfil : [sampleC 1 none none true,
              sampleC 1 (some 1) none true].filter
                (fun d => d.parent == some (sampleC 1 none none true).id)
              = [sampleC 1 (some 1) none true] := rfl
          rw [hfil]
          simp [optMap, hb2 fuel2]
    rw [listTree]
    have hroots : [sampleC 1 none none true,
        sampleC 1 (some 1) none true].filter (fun c => c.parent.isNone)
        = [sampleC 1 none none true] := rfl
    rw [hroots]
    simp [optMap, hb1]

/-- Witness for C10 on a concrete two-comment thread with distinct ids. -/
theorem c10_populate_termination_witness :
    (([sampleC 1 none none true, sampleC 2 (some 1) none true].map
        Comment.id).Nodup) ∧
    (listTree [sampleC 1 none none true, sampleC 2 (some 1) none true]
        2).isSome = true :=
  ⟨by decide,
    c10_populate_termination.1
      [sampleC 1 none none true, sampleC 2 (some 1) none true] (by decide)⟩


/-- `optMap` success yields the pointwise successes. -/
theorem optMap_forall2 {α β : Type} {f : α → Option β} :
    ∀ {l : List α} {r : List β}, optMap f l = some r →
      List.Forall₂ (fun a b => f a = some b) l r := by
  intro l
  induction l with
  | nil =>
      intro r h
      rw [optMap] at h
      cases h
      exact List.Forall₂.nil
  | cons a l ih =>
      intro r h
      rw [optMap] at h
      cases hfa : f a with
      | none => rw [hfa] at h; cases h
      | some b =>
          rw [hfa] at h
          cases hl : optMap f l with
          | none => rw [hl] at h; cases h
          | some r2 =>
              rw [hl] at h
              cases h
              exact List.Forall₂.cons hfa (ih hl)

/-- A populated node wraps the comment it was populated for. -/
theorem populate_comment {flat : List Comment} {fuel : Nat} {c : Comment}
    {n : Node} (h : populateF flat fuel c = some n) : n.comment = c := by
  cases fuel with
  | zero => cases h
  | succ fuel =>
      rw [populateF] at h
      cases ho : optMap (populateF flat fuel)
          (flat.filter (fun d => d.parent == some c.id)) with
      | none => rw [ho] at h; cases h
      | some kids => rw [ho] at h; cases h; rfl

/-- The comments of a pointwise-populated node list are the populated
comments. -/
theorem forall2_map_comment {flat : List Comment} {fuel : Nat} :
    ∀ {l : List Comment} {kids : List Node},
      List.Forall₂ (fun a b => populateF flat fuel a = some b) l kids →
      kids.map Node.comment = l := by
  intro l kids h
  induction h with
  | nil => rfl
  | cons ha _ ih => simp [List.map_cons, ih, populate_comment ha]

/-- Each member of the right list of a `Forall₂` has a related left member. -/
theorem forall2_mem_right {α β : Type} {P : α → β → Prop} :
    ∀ {l : List α} {r : List β}, List.Forall₂ P l r →
      ∀ b ∈ r, ∃ a ∈ l, P a b := by
  intro l r h
  induction h with
  | nil => intro b hb; cases hb
  | cons ha _ ih =>
      intro b hb
      rcases List.mem_cons.mp hb with rfl | hb2
      · exact ⟨_, List.mem_cons_self _ _, ha⟩
      · obtain ⟨a, hal, hp⟩ := ih b hb2
        exact ⟨a, List.mem_cons_of_mem _ hal, hp⟩

/-- `Node::populate` produces well-formed nodes. -/
theorem populate_wfn {flat : List Comment} :
    ∀ {fuel : Nat} {c : Comment} {n : Node},
      populateF flat fuel c = some n → c ∈ flat → WFN flat fuel n := by
  intro fuel
  induction fuel with
  | zero => intro c n h _; cases h
  | succ fuel ih =>
      intro c n h hc
      rw [populateF] at h
      cases ho : optMap (populateF flat fuel)
          (flat.filter (fun d => d.parent == some c.id)) with
      | none => rw [ho] at h; cases h
      | some kids =>
          rw [ho] at h
          cases h
          have hf2 := optMap_forall2 ho
          refine WFN.mk fuel c kids hc (forall2_map_comment hf2) ?_
          intro k hk
          obtain ⟨a, hal, hp⟩ := forall2_mem_right hf2 k hk
          exact ih hp (List.mem_filter.mp hal).1

/-- The forest built by `comment::list` has the parent-less comments (in list
order) as its tops and consists of well-formed nodes. -/
theorem listTree_wfn {flat : List Comment} {fuel : Nat} {F : List Node}
    (h : listTree flat fuel = some F) :
    F.map Node.comment = flat.filter (fun c => c.parent.isNone) ∧
    ∀ n ∈ F, WFN flat fuel n := by
  rw [listTree] at h
  have hf2 := optMap_forall2 h
  constructor
  · exact forall2_map_comment hf2
  · intro n hn
    obtain ⟨a, hal, hp⟩ := forall2_mem_right hf2 n hn
    exact populate_wfn hp (List.mem_filter.mp hal).1

/-- Membership in the flattened forest is membership in some tree. -/
theorem mem_allF {y : Comment} :
    ∀ {F : List Node}, y ∈ allF F ↔ ∃ n ∈ F, y ∈ allT n := by
  intro F
  induction F with
  | nil => simp [allF]
  | cons n rest ih => simp [allF, ih]

/-- Well-formed trees only contain comments of the flat list. -/
theorem wfn_all_mem {flat : List Comment} :
    ∀ {f : Nat} {n : Node}, WFN flat f n → ∀ y ∈ allT n, y ∈ flat := by
  intro f n h
  induction h with
  | mk fuel c kids hc hk hkids ih =>
      intro y hy
      rw [allT] at hy
      rcases List.mem_cons.mp hy with rfl | hy2
      · exact hc
      · obtain ⟨k, hkmem, hyk⟩ := mem_allF.mp hy2
        exact ih k hkmem y hyk

/-- Boolean equality tests are symmetric under a lawful `BEq`. -/
theorem beq_symm {α : Type} [BEq α] [LawfulBEq α] (a b : α) :
    (a == b) = (b == a) := by
  by_cases h : a = b
  · simp [h]
  · simp [h, Ne.symm h]

/-- Forest-level occurrence bookkeeping, from per-tree equations: the
occurrences of `x` in a forest are the occurrences of nodes whose comment id
is the parent of `x`, plus the occurrences of `x` among the top comments. -/
theorem count_allF_of (x : Comment) (pPar : Comment → Bool) :
    ∀ ks : List Node,
      (∀ k ∈ ks, List.count x (allT k) =
        List.countP pPar (allT k) + (if k.comment = x then 1 else 0)) →
      List.count x (allF ks) =
        List.countP pPar (allF ks) + List.count x (ks.map Node.comment) := by
  intro ks
  induction ks with
  | nil => intro _; simp [allF]
  | cons k ks ih =>
      intro h
      have hk := h k (List.mem_cons_self k ks)
      have hrest := ih (fun k2 hk2 => h k2 (List.mem_cons_of_mem k hk2))
      rw [allF, List.count_append, List.countP_append, List.map_cons]
      rw [List.count_cons, hk, hrest]
      have hbe : (if (k.comment == x) then (1:Nat) else 0) =
          (if k.comment = x then 1 else 0) := by
        by_cases hx : k.comment = x
        · simp [hx]
        · have hf : (k.comment == x) = false := beq_eq_false_iff_ne.mpr hx
          simp [hf, hx]
      rw [hbe]
      omega

/-- Tree-level occurrence bookkeeping over a well-formed node: with distinct
ids every comment of `flat` occurs in the subtree once per node whose id is
its parent, plus once if it is the subtree's own root. -/
theorem count_allT {flat : List Comment} {x : Comment}
    (hn : (flat.map Comment.id).Nodup) (hx : x ∈ flat) :
    ∀ {f : Nat} {n : Node}, WFN flat f n →
      List.count x (allT n) =
        List.countP (fun c => some c.id == x.parent) (allT n) +
        (if n.comment = x then 1 else 0) := by
  intro f n h
  induction h with
  | mk fuel c kids hc hk hkids ih =>
      have hforest := count_allF_of x (fun c2 => some c2.id == x.parent) kids
        (fun k hkm => ih k hkm)
      have hflat : flat.Nodup := hn.of_map
      have hcount : List.count x (flat.filter (fun d => d.parent == some c.id))
          = if (some c.id == x.parent) then 1 else 0 := by
        have h2 : (x.parent == some c.id) = (some c.id == x.parent) :=
          beq_symm _ _
        by_cases hp : (x.parent == some c.id) = true
        · rw [← h2, if_pos hp]
          have h3 : List.count x
              (List.filter (fun d => d.parent == some c.id) flat) =
              List.count x flat := List.count_filter hp
          rw [h3]
          exact List.count_eq_one_of_mem hflat hx
        · rw [← h2, if_neg hp]
          apply List.count_eq_zero_of_not_mem
          intro hmem
          exact hp (List.mem_filter.mp hmem).2
      have hbe : (if (c == x) then (1:Nat) else 0) =
          (if c = x then 1 else 0) := by
        by_cases hcx : c = x
        · simp [hcx]
        · have hf2 : (c == x) = false := beq_eq_false_iff_ne.mpr hcx
          simp [hf2, hcx]
      rw [allT, List.count_cons, List.countP_cons, hforest, hk, hcount, hbe]
      rfl

/-- Every comment of the built forest is a row of the flat list. -/
theorem allF_sub {flat : List Comment} {fuel : Nat} {F : List Node}
    (hF : listTree flat fuel = some F) : ∀ y ∈ allF F, y ∈ flat := by
  intro y hy
  obtain ⟨n, hn2, hy2⟩ := mem_allF.mp hy
  exact wfn_all_mem ((listTree_wfn hF).2 n hn2) y hy2

/-- The tree-level bookkeeping summed over the whole built forest. -/
theorem count_allF_full {flat : List Comment} {x : Comment}
    (hn : (flat.map Comment.id).Nodup) (hx : x ∈ flat) {fuel : Nat}
    {F : List Node} (hF : listTree flat fuel = some F) :
    List.count x (allF F) =
      List.countP (fun c => some c.id == x.parent) (allF F) +
      List.count x (F.map Node.comment) :=
  count_allF_of x _ F (fun k hk => count_allT hn hx ((listTree_wfn hF).2 k hk))

/-- No node id can match the parent of a root comment. -/
theorem countP_parent_none {x : Comment} (hp : x.parent = none)
    (L : List Comment) :
    List.countP (fun c => some c.id == x.parent) L = 0 := by
  rw [List.countP_eq_zero]
  intro a _
  simp [hp]

/-- When the parent id resolves (uniquely, by distinct ids) to the comment
`q`, counting parent-id matches is counting occurrences of `q`. -/
theorem countP_parent_found {flat : List Comment} {x q : Comment} {p : Int}
    (hn : (flat.map Comment.id).Nodup) (hp : x.parent = some p)
    (hq : q ∈ flat) (hqid : q.id = p) (L : List Comment)
    (hsub : ∀ y ∈ L, y ∈ flat) :
    List.countP (fun c => some c.id == x.parent) L = List.count q L := by
  rw [List.count_eq_countP]
  apply List.countP_congr
  intro c hc
  rw [hp]
  simp only [beq_iff_eq, Option.some.injEq]
  constructor
  · intro h2
    exact comment_id_inj hn c (hsub c hc) q hq (by rw [h2, hqid])
  · intro h2
    rw [h2, hqid]

/-- A comment whose ancestor chain reaches a root occurs exactly once in the
built forest. -/
theorem rooted_count {flat : List Comment} {fuel : Nat} {F : List Node}
    (hn : (flat.map Comment.id).Nodup) (hF : listTree flat fuel = some F) :
    ∀ (g : Nat) (x : Comment), x ∈ flat → rootedF flat g x = true →
      List.count x (allF F) = 1 := by
  intro g
  induction g with
  | zero => intro x _ hr; rw [rootedF_zero] at hr; cases hr
  | succ g ih =>
      intro x hx hr
      have hfull := count_allF_full hn hx hF
      have htops := (listTree_wfn hF).1
      cases hp : x.parent with
      | none =>
          rw [hfull, countP_parent_none hp, htops]
          have h3 : List.count x (flat.filter (fun c => c.parent.isNone)) =
              List.count x flat := List.count_filter (by simp [hp])
          rw [h3, List.count_eq_one_of_mem hn.of_map hx]
      | some p =>
          rw [rootedF_succ_some g hp] at hr
          cases hq : flat.find? (fun d => d.id == p) with
          | none => rw [hq] at hr; cases hr
          | some q =>
              rw [hq] at hr
              have hqmem := List.mem_of_find?_eq_some hq
              have hqid : q.id = p := by simpa using List.find?_some hq
              have h1 := ih q hqmem hr
              rw [hfull,
                countP_parent_found hn hp hqmem hqid (allF F) (allF_sub hF),
                htops, h1]
              have h0 : List.count x (flat.filter (fun c => c.parent.isNone))
                  = 0 := by
                apply List.count_eq_zero_of_not_mem
                intro hmem
                have h4 := (List.mem_filter.mp hmem).2
                simp [hp] at h4
              rw [h0]

/-- Every comment occurring in a well-formed tree whose root is rooted is
itself rooted, within the fuel that populated the tree. -/
theorem wfn_occurs_rooted {flat : List Comment}
    (hn : (flat.map Comment.id).Nodup) :
    ∀ {f : Nat} {n : Node}, WFN flat f n →
      ∀ g : Nat, 1 ≤ g → rootedF flat g n.comment = true →
        ∀ x ∈ allT n, rootedF flat (g + f - 1) x = true := by
  intro f n h
  induction h with
  | mk fuel c kids hc hk hkids ih =>
      intro g hg hroot x hx
      rw [allT] at hx
      rcases List.mem_cons.mp hx with rfl | hx2
      · exact rootedF_mono hroot (by omega)
      · obtain ⟨k, hkmem, hyk⟩ := mem_allF.mp hx2
        have hkc : k.comment ∈
            flat.filter (fun d => d.parent == some c.id) := by
          rw [← hk]
          exact List.mem_map_of_mem Node.comment hkmem
        have hkmemf : k.comment ∈ flat := (List.mem_filter.mp hkc).1
        have hkp : k.comment.parent = some c.id := by
          have h2 := (List.mem_filter.mp hkc).2
          simpa using h2
        have hcfind : flat.find? (fun e => e.id == c.id) = some c := by
          apply find?_unique hc (by simp)
          intro u hu hpu
          exact comment_id_inj hn u hu c hc (by simpa using hpu)
        have hkroot : rootedF flat (g + 1) k.comment = true := by
          rw [rootedF_succ_some g hkp, hcfind]
          exact hroot
        have h5 := ih k hkmem (g + 1) (by omega) hkroot x hyk
        have harith : g + 1 + fuel - 1 = g + (fuel + 1) - 1 := by omega
        rw [harith] at h5
        exact h5

/-- Membership in the flattened node list is membership in some tree. -/
theorem mem_nodesF {m : Node} :
    ∀ {F : List Node}, m ∈ nodesF F ↔ ∃ n ∈ F, m ∈ nodesT n := by
  intro F
  induction F with
  | nil => simp [nodesF]
  | cons n rest ih => simp [nodesF, ih]

/-- Every node of a well-formed tree is well-formed at some fuel. -/
theorem wfn_nodes {flat : List Comment} :
    ∀ {f : Nat} {n : Node}, WFN flat f n →
      ∀ m ∈ nodesT n, ∃ f2 : Nat, WFN flat f2 m := by
  intro f n h
  induction h with
  | mk fuel c kids hc hk hkids ih =>
      intro m hm
      rw [nodesT] at hm
      rcases List.mem_cons.mp hm with rfl | hm2
      · exact ⟨fuel + 1, WFN.mk fuel c kids hc hk hkids⟩
      · obtain ⟨k, hkmem, hmk⟩ := mem_nodesF.mp hm2
        exact ih k hkmem m hmk

/-- A comment whose chain does not reach a root within the building fuel
occurs nowhere in the built forest. -/
theorem unrooted_count_zero {flat : List Comment} {fuel : Nat} {F : List Node}
    (hn : (flat.map Comment.id).Nodup) (hF : listTree flat fuel = some F) :
    ∀ x : Comment, rootedF flat fuel x = false →
      List.count x (allF F) = 0 := by
  intro x hr0
  by_contra h
  have hpos : 0 < List.count x (allF F) := Nat.pos_of_ne_zero h
  have hxmem : x ∈ allF F := List.count_pos_iff.mp hpos
  obtain ⟨n, hnF, hxn⟩ := mem_allF.mp hxmem
  have hwf := (listTree_wfn hF).2 n hnF
  have hcom : n.comment ∈ F.map Node.comment :=
    List.mem_map_of_mem Node.comment hnF
  rw [(listTree_wfn hF).1] at hcom
  have hrp : n.comment.parent = none := by
    have h2 := (List.mem_filter.mp hcom).2
    simpa [Option.isNone_iff_eq_none] using h2
  cases hwf with
  | mk f2 c kids hc hk hkids =>
      have hroot1 : rootedF flat 1 (Node.mk c kids).comment = true :=
        rootedF_succ_none 0 hrp
      have h6 := wfn_occurs_rooted hn (WFN.mk f2 c kids hc hk hkids) 1
        (by omega) hroot1 x hxn
      have harith : 1 + (f2 + 1) - 1 = f2 + 1 := by omega
      rw [harith] at h6
      rw [h6] at hr0
      cases hr0

/-- Sums of pointwise added maps split. -/
theorem sum_map_add {α : Type} (f g : α → Nat) : ∀ l : List α,
    (l.map (fun a => f a + g a)).sum = (l.map f).sum + (l.map g).sum := by
  intro l
  induction l with
  | nil => rfl
  | cons a l ih =>
      simp only [List.map_cons, List.sum_cons, ih]
      omega

/-- The sum of a boolean indicator over a list is the predicate count. -/
theorem sum_indicator {α : Type} (p : α → Bool) : ∀ l : List α,
    (l.map (fun a => if p a then (1 : Nat) else 0)).sum = List.countP p l := by
  intro l
  induction l with
  | nil => rfl
  | cons a l ih =>
      simp only [List.map_cons, List.sum_cons, ih, List.countP_cons]
      omega

/-- A list drawn from a duplicate-free universe is counted by summing the
occurrences of each universe element. -/
theorem count_sum {flat : List Comment} (hnd : flat.Nodup) :
    ∀ L : List Comment, (∀ y ∈ L, y ∈ flat) →
      (flat.map (fun x => List.count x L)).sum = L.length := by
  intro L
  induction L with
  | nil => intro _; simp
  | cons y L ih =>
      intro hsub
      have hy : y ∈ flat := hsub y (List.mem_cons_self y L)
      have hL : ∀ z ∈ L, z ∈ flat :=
        fun z hz => hsub z (List.mem_cons_of_mem y hz)
      have hflip : List.countP (fun x => y == x) flat =
          List.countP (fun x => x == y) flat :=
        List.countP_congr (fun a _ => by rw [beq_symm])
      calc (flat.map (fun x => List.count x (y :: L))).sum
          = (flat.map (fun x =>
              List.count x L + if y == x then 1 else 0)).sum := by
            simp only [List.count_cons]
        _ = (flat.map (fun x => List.count x L)).sum +
            (flat.map (fun x => if y == x then 1 else 0)).sum :=
            sum_map_add _ _ flat
        _ = L.length + List.countP (fun x => y == x) flat := by
            rw [ih hL, sum_indicator]
        _ = L.length + 1 := by
            rw [hflip, ← List.count_eq_countP,
              List.count_eq_one_of_mem hnd hy]
        _ = (y :: L).length := by simp

/-- The node count of the built forest is the number of rooted comments. -/
theorem total_count {flat : List Comment} {fuel : Nat} {F : List Node}
    (hn : (flat.map Comment.id).Nodup) (hF : listTree flat fuel = some F) :
    (allF F).length =
      (flat.filter (fun x => rootedF flat fuel x)).length := by
  have h1 : (flat.map (fun x => List.count x (allF F))).sum = (allF F).length :=
    count_sum hn.of_map (allF F) (allF_sub hF)
  have h2 : flat.map (fun x => List.count x (allF F)) =
      flat.map (fun x => if rootedF flat fuel x then 1 else 0) := by
    apply List.map_congr_left
    intro x hx
    cases hr : rootedF flat fuel x with
    | true => simp [rooted_count hn hF fuel x hx hr]
    | false => simp [unrooted_count_zero hn hF x hr]
  rw [h2, sum_indicator] at h1
  rw [← h1, List.countP_eq_length_filter]

/-- C1 counterexample: in the two-comment list `[{id 1, parent 99},
{id 2, parent 1}]` with distinct ids, comment `2`'s parent id `1` IS present
in the list, yet the built forest is empty: comment `2` appears zero times
(not once as a child of the node for its parent), and the node count is `0`
while the number of "non-orphaned" comments in the claim's direct-parent
sense is `1`. -/
theorem c1_counterexample :
    listTree [sampleC 1 (some 99) none true, sampleC 2 (some 1) none true] 2
      = some [] ∧
    (sampleC 2 (some 1) none true).parent = some 1 ∧
    (([sampleC 1 (some 99) none true, sampleC 2 (some 1) none true].find?
        (fun d => d.id == 1)).isSome = true) ∧
    List.count (sampleC 2 (some 1) none true) (allF []) = 0 ∧
    (allF ([] : List Node)).length = 0 ∧
    ([sampleC 1 (some 99) none true, sampleC 2 (some 1) none true].countP
        (fun c => match c.parent with
          | none => true
          | some p => (([sampleC 1 (some 99) none true,
              sampleC 2 (some 1) none true]).find?
                (fun d => d.id == p)).isSome)) = 1 :=
  ⟨rfl, rfl, rfl, rfl, rfl, rfl⟩

/-- C1 (amended): for a flat list with pairwise-distinct ids whose forest
construction completes, every comment whose ancestor chain reaches a root
(`rootedF`) appears exactly once in the forest — roots (parent `None`) once
at top level, chain-rooted children once, and once among the children of
every node carrying their parent's id — while comments whose chain does not
reach a root (direct orphans, descendants of orphans, parent cycles) appear
nowhere; the total node count is the number of chain-rooted comments. -/
theorem c1_forest (flat : List Comment) (fuel : Nat) (F : List Node)
    (hn : (flat.map Comment.id).Nodup)
    (hF : listTree flat fuel = some F) :
    (∀ x ∈ flat,
      (x.parent = none →
        List.count x (allF F) = 1 ∧
        List.count x (F.map Node.comment) = 1) ∧
      (∀ p : Int, x.parent = some p → rootedF flat fuel x = true →
        List.count x (allF F) = 1 ∧
        ∀ n ∈ nodesF F, n.comment.id = p →
          List.count x (n.children.map Node.comment) = 1) ∧
      (rootedF flat fuel x = false → List.count x (allF F) = 0)) ∧
    (allF F).length =
      (flat.filter (fun x => rootedF flat fuel x)).length := by
  constructor
  · intro x hx
    refine ⟨?_, ?_, ?_⟩
    · intro hp
      have htops := (listTree_wfn hF).1
      have hxin : x ∈ flat.filter (fun c => c.parent.isNone) :=
        List.mem_filter.mpr ⟨hx, by simp [hp]⟩
      have hxin2 : x ∈ F.map Node.comment := by
        rw [htops]
        exact hxin
      obtain ⟨n, hnF, hnc⟩ := List.mem_map.mp hxin2
      have hwf := (listTree_wfn hF).2 n hnF
      cases hwf with
      | mk f2 c kids hc hk hkids =>
          have hroot : rootedF flat (f2 + 1) x = true :=
            rootedF_succ_none f2 hp
          constructor
          · exact rooted_count hn hF (f2 + 1) x hx hroot
          · rw [htops]
            have h3 : List.count x
                (flat.filter (fun c => c.parent.isNone)) =
                List.count x flat := List.count_filter (by simp [hp])
            rw [h3]
            exact List.count_eq_one_of_mem hn.of_map hx
    · intro p hp hr
      constructor
      · exact rooted_count hn hF fuel x hx hr
      · intro n hnF hnid
        obtain ⟨n0, hn0F, hnT⟩ := mem_nodesF.mp hnF
        obtain ⟨f2, hwf⟩ := wfn_nodes ((listTree_wfn hF).2 n0 hn0F) n hnT
        cases hwf with
        | mk f3 c kids hc hk hkids =>
            have hcid : c.id = p := hnid
            have hchildren : (Node.mk c kids).children = kids := rfl
            rw [hchildren, hk]
            have hpx : (x.parent == some c.id) = true := by simp [hp, hcid]
            have h3 : List.count x
                (flat.filter (fun d => d.parent == some c.id)) =
                List.count x flat := List.count_filter hpx
            rw [h3]
            exact List.count_eq_one_of_mem hn.of_map hx
    · exact unrooted_count_zero hn hF x
  · exact total_count hn hF

/-- Witness for C1 on the concrete root-and-reply thread: the forest holds
both comments, matching the rooted count. -/
theorem c1_forest_witness :
    (allF [Node.mk (sampleC 1 none none true)
        [Node.mk (sampleC 2 (some 1) none true) []]]).length =
      ([sampleC 1 none none true, sampleC 2 (some 1) none true].filter
        (fun x => rootedF
          [sampleC 1 none none true, sampleC 2 (some 1) none true] 2
          x)).length :=
  (c1_forest [sampleC 1 none none true, sampleC 2 (some 1) none true] 2
    [Node.mk (sampleC 1 none none true)
      [Node.mk (sampleC 2 (some 1) none true) []]] (by decide) rfl).2

end Mogger
